import Mathlib

/-!
A shallow embedding of the `n64swap` ROM byte-order converter
(`src/main.rs`) together with proofs of its specified properties.

Strings from the Rust program (filenames, extensions) are modelled as
`List Char`; for the ASCII filenames the program deals with, Rust's byte
length and byte indices coincide with char count and char indices.
Bytes are modelled as `Nat` (the swap transform only permutes them, it
never computes with their values).
-/

namespace N64Swap

/-- The three ROM encodings (`enum RomType` in the source). -/
inductive RomType where
  | BigEndian
  | ByteSwap
  | LittleEndian
deriving DecidableEq, Repr

/-- One 4-byte word, the unit of transformation (`[u8; 4]`). -/
structure Word where
  b0 : Nat
  b1 : Nat
  b2 : Nat
  b3 : Nat
deriving DecidableEq, Repr

/-- Source constant `const BIG_ENDIAN: [u8; 4] = [0x80, 0x37, 0x12, 0x40]`. -/
def BIG_ENDIAN : Word := ⟨0x80, 0x37, 0x12, 0x40⟩

/-- Source constant `const BYTE_SWAP: [u8; 4] = [0x37, 0x80, 0x40, 0x12]`. -/
def BYTE_SWAP : Word := ⟨0x37, 0x80, 0x40, 0x12⟩

/-- Source constant `const LITTLE_ENDIAN: [u8; 4] = [0x40, 0x12, 0x37, 0x80]`. -/
def LITTLE_ENDIAN : Word := ⟨0x40, 0x12, 0x37, 0x80⟩

/-- Method `RomType::get_file_ext`, as a char list. -/
def RomType.get_file_ext : RomType → List Char
  | .BigEndian => ".z64".toList
  | .ByteSwap => ".v64".toList
  | .LittleEndian => ".n64".toList

/-- Method `RomType::get_header_bytes`. -/
def RomType.get_header_bytes : RomType → Word
  | .BigEndian => BIG_ENDIAN
  | .ByteSwap => BYTE_SWAP
  | .LittleEndian => LITTLE_ENDIAN

/-- Function `fn swapper(bytes: &mut [u8; 4], src_type: RomType, dst_type: RomType)`.
The in-place mutation is modelled as returning the new word.  Each match
arm performs the two `bytes.swap` calls of the corresponding source arm. -/
def swapper (bytes : Word) (src_type dst_type : RomType) : Word :=
  match src_type, dst_type with
  | .BigEndian, .ByteSwap | .ByteSwap, .BigEndian =>
      -- bytes.swap(0, 1); bytes.swap(2, 3)
      ⟨bytes.b1, bytes.b0, bytes.b3, bytes.b2⟩
  | .BigEndian, .LittleEndian | .LittleEndian, .BigEndian =>
      -- bytes.swap(0, 3); bytes.swap(1, 2)
      ⟨bytes.b3, bytes.b2, bytes.b1, bytes.b0⟩
  | .ByteSwap, .LittleEndian | .LittleEndian, .ByteSwap =>
      -- bytes.swap(0, 2); bytes.swap(1, 3)
      ⟨bytes.b2, bytes.b3, bytes.b0, bytes.b1⟩
  | _, _ => bytes

/-- Function `fn guess_type(ext: &str) -> Option<RomType>`: Rust matches
`ext.to_lowercase().as_str()` against the three canonical suffixes, which is
a sequence of string-equality tests.  `to_lowercase` is modelled char-wise
by `Char.toLower` (they agree on the ASCII suffixes involved). -/
def guess_type (ext : List Char) : Option RomType :=
  if ext.map Char.toLower = ".z64".toList then some RomType.BigEndian
  else if ext.map Char.toLower = ".v64".toList then some RomType.ByteSwap
  else if ext.map Char.toLower = ".n64".toList then some RomType.LittleEndian
  else none

/-- Function `fn identify_header(bytes: &[u8; 4]) -> Option<RomType>`: an exact match
of the 4-byte buffer against the three signature constants. -/
def identify_header (bytes : Word) : Option RomType :=
  if bytes = BIG_ENDIAN then some RomType.BigEndian
  else if bytes = BYTE_SWAP then some RomType.ByteSwap
  else if bytes = LITTLE_ENDIAN then some RomType.LittleEndian
  else none

/-- Function `fn detect_ext(filename: &str) -> Option<&str>`: `filename.rfind('.')`
followed by `filename.get(idx..)` returns the suffix starting at the LAST
dot.  On a char list: the recursive call prefers a suffix found further
right; when the tail has no dot and the head is a dot, the whole remaining
list is the extension. -/
def detect_ext (filename : List Char) : Option (List Char) :=
  match filename with
  | [] => none
  | c :: cs =>
    match detect_ext cs with
    | some s => some s
    | none => if c = '.' then some (c :: cs) else none

/-- The four bytes of a word in order, as written by `write_all(&bytes)`. -/
def wordBytes (w : Word) : List Nat := [w.b0, w.b1, w.b2, w.b3]

/-- The body read loop `while buf.read_exact(&mut bytes).is_ok()`: it yields
one 4-byte word per iteration and stops at the first short read, so trailing
bytes that do not form a complete word are dropped. -/
def chunkWords : List Nat → List Word
  | b0 :: b1 :: b2 :: b3 :: rest => ⟨b0, b1, b2, b3⟩ :: chunkWords rest
  | _ => []

/-- The bytes the body loop writes: every complete 4-byte word of `body`,
permuted by `swapper` for `(src, dst)`, concatenated in order. -/
def convertBody (src dst : RomType) (body : List Nat) : List Nat :=
  ((chunkWords body).map fun w => wordBytes (swapper w src dst)).flatten

/-- Resolution of the destination encoding in `main`:
`args.romtype.unwrap_or_else(|| args.destination_filename.as_deref()
.and_then(detect_ext).and_then(guess_type).unwrap_or(RomType::BigEndian))`. -/
def resolve_outfiletype (romtype : Option RomType)
    (destination_filename : Option (List Char)) : RomType :=
  match romtype with
  | some t => t
  | none => ((destination_filename.bind detect_ext).bind guess_type).getD RomType.BigEndian

/-- The closure deriving the default output filename in `main`:
`let len = name.len(); if name.chars().nth(len - 4) == Some('.')
\x7b name.truncate(len - 4); \x7d name.push_str(outfiletype.get_file_ext())`.
`len - 4` is `usize` subtraction: when `len < 4` it underflows, which is an
arithmetic error in Rust (a panic under the default debug overflow checks);
that non-result is modelled as `none`.  Byte length and byte indices are
modelled as char count and char indices (they coincide for ASCII names). -/
def derive_default_outfilename (filename : List Char) (outfiletype : RomType) :
    Option (List Char) :=
  let len := filename.length
  if len < 4 then none
  else
    let name := if filename.get? (len - 4) = some '.'
      then filename.take (len - 4) else filename
    some (name ++ outfiletype.get_file_ext)

/-- Conversion outcome exposed by a run of `main`, abstracting the console
message + exit code of each terminal path.  `converted` carries the output
filename and the full byte stream written to it; every other outcome
produces no output. -/
inductive Outcome where
  | readError
  | unrecognized
  | identified (t : RomType)
  | alreadyTarget (t : RomType)
  | panicked
  | sameFilename (n : List Char)
  | converted (outname : List Char) (output : List Nat)
deriving DecidableEq, Repr

/-- The logic of `fn main` after `Args::parse` and with the file system
abstracted away: `input` is the byte stream of the opened input file, and a
`converted` outcome carries the bytes written to the output file.  The
`force`/overwrite flag and open errors only affect file-system plumbing and
are not modelled. -/
def run_main (filename : List Char) (destination_filename : Option (List Char))
    (romtype : Option RomType) (identify : Bool) (input : List Nat) : Outcome :=
  match input with
  | b0 :: b1 :: b2 :: b3 :: body =>
    match identify_header ⟨b0, b1, b2, b3⟩ with
    | none => Outcome.unrecognized
    | some filetype =>
      if identify then Outcome.identified filetype
      else
        let outfiletype := resolve_outfiletype romtype destination_filename
        if filetype = outfiletype then Outcome.alreadyTarget outfiletype
        else
          match (match destination_filename with
                 | some n => some n
                 | none => derive_default_outfilename filename outfiletype) with
          | none => Outcome.panicked
          | some outfilename =>
            if filename = outfilename then Outcome.sameFilename outfilename
            else Outcome.converted outfilename
              (wordBytes outfiletype.get_header_bytes ++ convertBody filetype outfiletype body)
  | _ => Outcome.readError

/-- C1: for every 4-byte word `w` and distinct encodings `A ≠ B`, applying the
swap transform for `(A, B)` and then the one for `(B, A)` restores `w`
exactly (the transform is self-inverse). -/
theorem swapper_self_inverse (w : Word) (A B : RomType) (hAB : A ≠ B) :
    swapper (swapper w A B) B A = w := by
  cases w
  cases A <;> cases B <;> simp_all [swapper]

theorem swapper_self_inverse_witness :
    RomType.BigEndian ≠ RomType.ByteSwap ∧
      swapper (swapper ⟨1, 2, 3, 4⟩ RomType.BigEndian RomType.ByteSwap)
        RomType.ByteSwap RomType.BigEndian = ⟨1, 2, 3, 4⟩ :=
  ⟨by decide, swapper_self_inverse ⟨1, 2, 3, 4⟩ RomType.BigEndian RomType.ByteSwap (by decide)⟩

/-- C2: for every 4-byte word `w` and pairwise-distinct encodings `A`, `B`,
`C`, applying the swap for `(A, B)` and then the swap for `(B, C)` equals
applying the swap for `(A, C)` directly (group closure). -/
theorem swapper_compose (w : Word) (A B C : RomType)
    (hAB : A ≠ B) (hBC : B ≠ C) (hAC : A ≠ C) :
    swapper (swapper w A B) B C = swapper w A C := by
  cases w
  cases A <;> cases B <;> cases C <;> simp_all [swapper]

theorem swapper_compose_witness :
    RomType.BigEndian ≠ RomType.ByteSwap ∧ RomType.ByteSwap ≠ RomType.LittleEndian ∧
      RomType.BigEndian ≠ RomType.LittleEndian ∧
      swapper (swapper ⟨1, 2, 3, 4⟩ RomType.BigEndian RomType.ByteSwap)
          RomType.ByteSwap RomType.LittleEndian =
        swapper ⟨1, 2, 3, 4⟩ RomType.BigEndian RomType.LittleEndian :=
  ⟨by decide, by decide, by decide,
    swapper_compose ⟨1, 2, 3, 4⟩ RomType.BigEndian RomType.ByteSwap RomType.LittleEndian
      (by decide) (by decide) (by decide)⟩

/-- C5: for every 4-byte word `w` and every encoding `A`, the swap transform
with source `A` and destination `A` is the identity (a no-op, never an
error). -/
theorem swapper_id (w : Word) (A : RomType) : swapper w A A = w := by
  cases A <;> rfl

theorem swapper_id_witness :
    swapper ⟨9, 8, 7, 6⟩ RomType.LittleEndian RomType.LittleEndian = ⟨9, 8, 7, 6⟩ :=
  swapper_id ⟨9, 8, 7, 6⟩ RomType.LittleEndian

theorem detect_ext_eq_none_iff (fn : List Char) : detect_ext fn = none ↔ '.' ∉ fn := by
  induction fn with
  | nil => simp [detect_ext]
  | cons c cs ih =>
    rw [detect_ext]
    cases hcs : detect_ext cs with
    | some s =>
      have hdot : '.' ∈ cs := by
        by_contra hc
        rw [ih.mpr hc] at hcs
        exact Option.noConfusion hcs
      simp [hdot]
    | none =>
      have hnd : '.' ∉ cs := ih.mp hcs
      by_cases hc : c = '.'
      · subst hc
        simp
      · simp [hc, hnd, Ne.symm hc]

theorem detect_ext_last_dot (rest : List Char) (h : '.' ∉ rest) :
    ∀ pre : List Char, detect_ext (pre ++ '.' :: rest) = some ('.' :: rest) := by
  intro pre
  induction pre with
  | nil =>
    rw [List.nil_append, detect_ext, (detect_ext_eq_none_iff rest).mpr h]
    simp
  | cons c cs ih =>
    rw [List.cons_append, detect_ext, ih]

theorem detect_ext_some_decomp (fn : List Char) :
    ∀ ext, detect_ext fn = some ext →
      ∃ pre rest, fn = pre ++ '.' :: rest ∧ ext = '.' :: rest ∧ '.' ∉ rest := by
  induction fn with
  | nil => intro ext h; exact Option.noConfusion h
  | cons c cs ih =>
    intro ext h
    rw [detect_ext] at h
    cases hcs : detect_ext cs with
    | some s =>
      rw [hcs] at h
      obtain ⟨pre, rest, h1, h2, h3⟩ := ih s hcs
      exact ⟨c :: pre, rest, by rw [h1, List.cons_append], by
        cases h; exact h2, h3⟩
    | none =>
      rw [hcs] at h
      by_cases hc : c = '.'
      · subst hc
        rw [if_pos rfl] at h
        cases h
        exact ⟨[], cs, rfl, rfl, (detect_ext_eq_none_iff cs).mp hcs⟩
      · rw [if_neg hc] at h
        exact Option.noConfusion h

/-- C6: `detect_ext` returns the suffix of the filename starting at the last
dot, `none` when the filename has no dot; with several dots only the last
segment is returned, and a filename that is just a leading dot plus suffix
yields the whole string.  Instances: `detect_ext "rom.z64" = some ".z64"`,
`detect_ext "rom" = none`, `detect_ext "a.b.v64" = some ".v64"`. -/
theorem detect_ext_spec :
    (∀ fn : List Char,
      (detect_ext fn = none ↔ '.' ∉ fn) ∧
      (∀ ext, detect_ext fn = some ext ↔
        ∃ pre rest, fn = pre ++ '.' :: rest ∧ ext = '.' :: rest ∧ '.' ∉ rest)) ∧
    detect_ext "rom.z64".toList = some ".z64".toList ∧
    detect_ext "rom".toList = none ∧
    detect_ext "a.b.v64".toList = some ".v64".toList ∧
    detect_ext ".z64".toList = some ".z64".toList := by
  refine ⟨fun fn => ⟨detect_ext_eq_none_iff fn, fun ext => ⟨detect_ext_some_decomp fn ext, ?_⟩⟩,
    by decide, by decide, by decide, by decide⟩
  rintro ⟨pre, rest, rfl, rfl, h3⟩
  exact detect_ext_last_dot rest h3 pre

theorem detect_ext_spec_witness : detect_ext "rom".toList = none :=
  (detect_ext_spec.1 "rom".toList).1.mpr (by decide)

/-- C7: `guess_type` matches the lowercased suffix against the three
canonical suffixes: `some BigEndian` exactly when it lowercases to ".z64",
`some ByteSwap` for ".v64", `some LittleEndian` for ".n64", and `none` for
every other suffix. -/
theorem guess_type_spec (s : List Char) :
    (guess_type s = some RomType.BigEndian ↔ s.map Char.toLower = ".z64".toList) ∧
    (guess_type s = some RomType.ByteSwap ↔ s.map Char.toLower = ".v64".toList) ∧
    (guess_type s = some RomType.LittleEndian ↔ s.map Char.toLower = ".n64".toList) ∧
    (guess_type s = none ↔ s.map Char.toLower ≠ ".z64".toList ∧
      s.map Char.toLower ≠ ".v64".toList ∧ s.map Char.toLower ≠ ".n64".toList) := by
  have hzv : (".z64".toList : List Char) ≠ ".v64".toList := by decide
  have hzn : (".z64".toList : List Char) ≠ ".n64".toList := by decide
  have hvn : (".v64".toList : List Char) ≠ ".n64".toList := by decide
  unfold guess_type
  split_ifs with h1 h2 h3 <;> simp_all

theorem guess_type_spec_witness : guess_type ".Z64".toList = some RomType.BigEndian :=
  (guess_type_spec ".Z64".toList).1.mpr (by decide)

/-- C4: `identify_header` returns `some BigEndian` exactly for
`80 37 12 40`, `some ByteSwap` exactly for `37 80 40 12`, `some
LittleEndian` exactly for `40 12 37 80`, and `none` for every other 4-byte
value; a run whose header matches no signature terminates as
`unrecognized` (and so produces no output), in particular for header
`FF FF FF FF`. -/
theorem identify_header_spec :
    (∀ w : Word,
      (identify_header w = some RomType.BigEndian ↔ w = BIG_ENDIAN) ∧
      (identify_header w = some RomType.ByteSwap ↔ w = BYTE_SWAP) ∧
      (identify_header w = some RomType.LittleEndian ↔ w = LITTLE_ENDIAN) ∧
      (identify_header w = none ↔
        w ≠ BIG_ENDIAN ∧ w ≠ BYTE_SWAP ∧ w ≠ LITTLE_ENDIAN)) ∧
    (∀ (fn : List Char) (dfn : Option (List Char)) (rt : Option RomType)
        (idf : Bool) (b0 b1 b2 b3 : Nat) (body : List Nat),
      identify_header ⟨b0, b1, b2, b3⟩ = none →
      run_main fn dfn rt idf (b0 :: b1 :: b2 :: b3 :: body) = Outcome.unrecognized) ∧
    (∀ (fn : List Char) (dfn : Option (List Char)) (rt : Option RomType)
        (idf : Bool) (body : List Nat),
      run_main fn dfn rt idf (0xFF :: 0xFF :: 0xFF :: 0xFF :: body) =
        Outcome.unrecognized) := by
  refine ⟨fun w => ?_, fun fn dfn rt idf b0 b1 b2 b3 body h => ?_,
    fun fn dfn rt idf body => ?_⟩
  · have e1 : BIG_ENDIAN ≠ BYTE_SWAP := by decide
    have e2 : BIG_ENDIAN ≠ LITTLE_ENDIAN := by decide
    have e3 : BYTE_SWAP ≠ LITTLE_ENDIAN := by decide
    unfold identify_header
    split_ifs with h1 h2 h3 <;> simp_all
  · rw [run_main, h]
  · rw [run_main]
    norm_num [identify_header, BIG_ENDIAN, BYTE_SWAP, LITTLE_ENDIAN]

theorem identify_header_spec_witness :
    identify_header ⟨0xFF, 0xFF, 0xFF, 0xFF⟩ = none ∧
      run_main [] none none false [0xFF, 0xFF, 0xFF, 0xFF] = Outcome.unrecognized :=
  ⟨(identify_header_spec.1 ⟨0xFF, 0xFF, 0xFF, 0xFF⟩).2.2.2.mpr
      ⟨by decide, by decide, by decide⟩,
    identify_header_spec.2.1 [] none none false 0xFF 0xFF 0xFF 0xFF []
      (by decide)⟩

/-- C8: the destination encoding is resolved by a fixed priority chain: an
explicitly requested type wins; otherwise the type inferred from the output
filename via `detect_ext` then `guess_type` is used when both succeed;
otherwise the destination defaults to `BigEndian`. -/
theorem resolve_outfiletype_spec :
    (∀ (t : RomType) (dfn : Option (List Char)),
      resolve_outfiletype (some t) dfn = t) ∧
    (∀ (n e : List Char) (u : RomType),
      detect_ext n = some e → guess_type e = some u →
      resolve_outfiletype none (some n) = u) ∧
    (∀ dfn : Option (List Char),
      (dfn.bind detect_ext).bind guess_type = none →
      resolve_outfiletype none dfn = RomType.BigEndian) := by
  refine ⟨fun t dfn => rfl, fun n e u h1 h2 => ?_, fun dfn h => ?_⟩
  · simp [resolve_outfiletype, h1, h2]
  · simp [resolve_outfiletype, h]

theorem resolve_outfiletype_spec_witness :
    detect_ext "out.v64".toList = some ".v64".toList ∧
      guess_type ".v64".toList = some RomType.ByteSwap ∧
      resolve_outfiletype none (some "out.v64".toList) = RomType.ByteSwap :=
  ⟨by decide, by decide,
    resolve_outfiletype_spec.2.1 "out.v64".toList ".v64".toList RomType.ByteSwap
      (by decide) (by decide)⟩

/-- C9: when the resolved destination encoding equals the detected source
encoding, the run ends as `alreadyTarget` — a successful no-op outcome that
carries no output bytes and no output filename (the output file is never
opened or written). -/
theorem run_main_already_target
    (fn : List Char) (dfn : Option (List Char)) (rt : Option RomType)
    (b0 b1 b2 b3 : Nat) (body : List Nat) (src : RomType)
    (hid : identify_header ⟨b0, b1, b2, b3⟩ = some src)
    (hres : resolve_outfiletype rt dfn = src) :
    run_main fn dfn rt false (b0 :: b1 :: b2 :: b3 :: body) =
      Outcome.alreadyTarget src := by
  rw [run_main, hid]
  simp [hres]

theorem run_main_already_target_witness :
    identify_header ⟨0x80, 0x37, 0x12, 0x40⟩ = some RomType.BigEndian ∧
      resolve_outfiletype (some RomType.BigEndian) none = RomType.BigEndian ∧
      run_main "a.z64".toList none (some RomType.BigEndian) false
          [0x80, 0x37, 0x12, 0x40, 1, 2, 3, 4] =
        Outcome.alreadyTarget RomType.BigEndian :=
  ⟨by decide, by decide,
    run_main_already_target "a.z64".toList none (some RomType.BigEndian)
      0x80 0x37 0x12 0x40 [1, 2, 3, 4] RomType.BigEndian (by decide) (by decide)⟩

theorem chunkWords_length : ∀ l : List Nat, (chunkWords l).length = l.length / 4
  | [] => by simp [chunkWords]
  | [_] => by simp [chunkWords]
  | [_, _] => by simp [chunkWords]
  | [_, _, _] => by simp [chunkWords]
  | _ :: _ :: _ :: _ :: rest => by
      simp [chunkWords, chunkWords_length rest]
      omega

theorem convertBody_length (src dst : RomType) (body : List Nat) :
    (convertBody src dst body).length = body.length / 4 * 4 := by
  have h : ∀ ws : List Word,
      ((ws.map fun w => wordBytes (swapper w src dst)).flatten).length = ws.length * 4 := by
    intro ws
    induction ws with
    | nil => simp
    | cons w ws ih =>
      simp only [wordBytes] at ih ⊢
      simp only [List.map_cons, List.flatten_cons, List.length_append, List.length_cons,
        List.length_nil, ih]
      omega
  rw [convertBody, h, chunkWords_length]

/-- C3: whenever a run produces output, that output is exactly the resolved
destination encoding's 4-byte signature followed by every complete 4-byte
body word permuted by the (source, destination) swap; its length is 4 plus
the body length rounded down to a multiple of 4 (trailing bytes are
dropped, with no error).  Instances: header `80 37 12 40` with body
`01 02 03 04` converted to LittleEndian yields header `40 12 37 80` and
body `04 03 02 01`, and a 6-byte body yields the same 4-byte output body. -/
theorem run_main_converted_output :
    (∀ (fn : List Char) (dfn : Option (List Char)) (rt : Option RomType) (idf : Bool)
        (b0 b1 b2 b3 : Nat) (body : List Nat) (n : List Char) (out : List Nat)
        (src : RomType),
      identify_header ⟨b0, b1, b2, b3⟩ = some src →
      run_main fn dfn rt idf (b0 :: b1 :: b2 :: b3 :: body) = Outcome.converted n out →
      out = wordBytes (resolve_outfiletype rt dfn).get_header_bytes ++
          convertBody src (resolve_outfiletype rt dfn) body ∧
        out.length = 4 + body.length / 4 * 4) ∧
    run_main "a.z64".toList none (some RomType.LittleEndian) false
        [0x80, 0x37, 0x12, 0x40, 1, 2, 3, 4] =
      Outcome.converted "a.n64".toList [0x40, 0x12, 0x37, 0x80, 4, 3, 2, 1] ∧
    run_main "a.z64".toList none (some RomType.LittleEndian) false
        [0x80, 0x37, 0x12, 0x40, 1, 2, 3, 4, 5, 6] =
      Outcome.converted "a.n64".toList [0x40, 0x12, 0x37, 0x80, 4, 3, 2, 1] := by
  refine ⟨?_, by decide, by decide⟩
  intro fn dfn rt idf b0 b1 b2 b3 body n out src hid hrun
  simp only [run_main, hid] at hrun
  split at hrun
  · simp at hrun
  · split at hrun
    · simp at hrun
    · split at hrun
      · simp at hrun
      · split at hrun
        · simp at hrun
        · injection hrun with hn hout
          refine ⟨hout.symm, ?_⟩
          rw [← hout]
          simp [wordBytes, convertBody_length]
          omega

theorem run_main_converted_output_witness :
    identify_header ⟨0x80, 0x37, 0x12, 0x40⟩ = some RomType.BigEndian ∧
      run_main "a.z64".toList none (some RomType.LittleEndian) false
          [0x80, 0x37, 0x12, 0x40, 1, 2, 3, 4] =
        Outcome.converted "a.n64".toList [0x40, 0x12, 0x37, 0x80, 4, 3, 2, 1] ∧
      ([0x40, 0x12, 0x37, 0x80, 4, 3, 2, 1] : List Nat) =
          wordBytes (resolve_outfiletype (some RomType.LittleEndian) none).get_header_bytes ++
            convertBody RomType.BigEndian
              (resolve_outfiletype (some RomType.LittleEndian) none) [1, 2, 3, 4] ∧
        ([0x40, 0x12, 0x37, 0x80, 4, 3, 2, 1] : List Nat).length =
          4 + ([1, 2, 3, 4] : List Nat).length / 4 * 4 :=
  ⟨by decide, by decide,
    run_main_converted_output.1 "a.z64".toList none (some RomType.LittleEndian) false
      0x80 0x37 0x12 0x40 [1, 2, 3, 4] "a.n64".toList
      [0x40, 0x12, 0x37, 0x80, 4, 3, 2, 1] RomType.BigEndian (by decide) (by decide)⟩

/-- C10: deriving the default output filename computes `len - 4` on the
filename's unsigned length, which underflows for filenames shorter than 4
bytes: the derivation is not total (modelled as `none`, the Rust panic
under checked arithmetic), and `run_main` hits that path, e.g. on the
3-char filename "abc" with a ByteSwap input, no destination filename and no
requested type.  For every other filename the derivation strips the last 4
chars exactly when the char at position `len - 4` is a dot, then appends
the destination's canonical suffix. -/
theorem derive_default_outfilename_spec :
    (∀ (t : RomType) (fn : List Char), fn.length < 4 →
      derive_default_outfilename fn t = none) ∧
    (∀ (t : RomType) (pre : List Char) (a b c : Char),
      derive_default_outfilename (pre ++ ['.', a, b, c]) t =
        some (pre ++ t.get_file_ext)) ∧
    (∀ (t : RomType) (fn : List Char), 4 ≤ fn.length →
      fn.get? (fn.length - 4) ≠ some '.' →
      derive_default_outfilename fn t = some (fn ++ t.get_file_ext)) ∧
    run_main "abc".toList none none false [0x37, 0x80, 0x40, 0x12] =
      Outcome.panicked := by
  refine ⟨fun t fn h => ?_, fun t pre a b c => ?_, fun t fn h1 h2 => ?_, by decide⟩
  · rw [derive_default_outfilename, if_pos h]
  · have hlen : (pre ++ ['.', a, b, c]).length = pre.length + 4 := by simp
    have hget : (pre ++ ['.', a, b, c]).get? pre.length = some '.' := by
      rw [List.get?_eq_getElem?, List.getElem?_append_right (le_refl pre.length)]
      simp
    rw [derive_default_outfilename]
    rw [hlen]
    rw [if_neg (by omega)]
    have h4 : pre.length + 4 - 4 = pre.length := by omega
    rw [h4, hget, if_pos rfl, List.take_left]
  · rw [derive_default_outfilename, if_neg (by omega), if_neg h2]

theorem derive_default_outfilename_spec_witness :
    ("abc".toList.length < 4 ∧
        derive_default_outfilename "abc".toList RomType.BigEndian = none) ∧
      derive_default_outfilename ("a".toList ++ ['.', 'z', '6', '4'])
          RomType.LittleEndian = some ("a".toList ++ RomType.LittleEndian.get_file_ext) ∧
      (4 ≤ "romz64".toList.length ∧ "romz64".toList.get? 2 ≠ some '.' ∧
        derive_default_outfilename "romz64".toList RomType.BigEndian =
          some ("romz64".toList ++ RomType.BigEndian.get_file_ext)) :=
  ⟨⟨by decide, derive_default_outfilename_spec.1 RomType.BigEndian "abc".toList (by decide)⟩,
    derive_default_outfilename_spec.2.1 RomType.LittleEndian "a".toList 'z' '6' '4',
    by decide, by decide,
    derive_default_outfilename_spec.2.2.1 RomType.BigEndian "romz64".toList
      (by decide) (by decide)⟩

end N64Swap
